import Mathlib

/-!
Verification of the Broadway lottery application (files `app.py` and
`db_mongodb.py`) against its specification.

Strings are embedded as `List Char` for the pure text-processing functions
of `app.py` (`sanitize_input`, `validate_email`) and as `String` for the
store layer of `db_mongodb.py`.  The two MongoDB collections (`entries`,
`logs`) are embedded as lists of structured documents inside a `DB` state,
and each store operation takes the state and returns the new state together
with its Python return value.  A Boolean `fault` argument models a
`PyMongoError` raised by the underlying store during the operation: the
`except PyMongoError` handler of every function returns a constant neutral
value that does not depend on where inside the `try` block the error was
raised, so a single flag captures the handler's behaviour.
-/

namespace Broadway

/-! ### `sanitize_input` (app.py, lines 21-33) -/

/-- Characters for which Python's `str.isspace()` is true; `str.strip()`
with no argument removes exactly these at both ends. -/
def isPySpace (c : Char) : Bool :=
  c = ' ' || c = '\t' || c = '\n' || c = '\r' || c.toNat = 0x0b || c.toNat = 0x0c ||
  (0x1c ≤ c.toNat && c.toNat ≤ 0x1f) || c.toNat = 0x85 || c.toNat = 0xa0 ||
  c.toNat = 0x1680 || (0x2000 ≤ c.toNat && c.toNat ≤ 0x200a) ||
  c.toNat = 0x2028 || c.toNat = 0x2029 || c.toNat = 0x202f ||
  c.toNat = 0x205f || c.toNat = 0x3000

/-- `value.strip()`: drop whitespace from both ends. -/
def pyStrip (s : List Char) : List Char :=
  ((s.dropWhile isPySpace).reverse.dropWhile isPySpace).reverse

/-- The character class `[\x00-\x1f\x7f-\x9f]` of the `re.sub` call. -/
def isCtlChar (c : Char) : Bool :=
  c.toNat ≤ 0x1f || (0x7f ≤ c.toNat && c.toNat ≤ 0x9f)

/-- `re.sub(r"[\x00-\x1f\x7f-\x9f]", "", value)`. -/
def removeCtl (s : List Char) : List Char :=
  s.filter (fun c => !isCtlChar c)

/-- The image of one character under `value.replace("<", "&lt;")`. -/
def escLt (c : Char) : List Char :=
  if c = '<' then ['&', 'l', 't', ';'] else [c]

/-- The image of one character under `value.replace(">", "&gt;")`. -/
def escGt (c : Char) : List Char :=
  if c = '>' then ['&', 'g', 't', ';'] else [c]

/-- `value.replace("<", "&lt;")`. -/
def replaceLt (s : List Char) : List Char :=
  s.flatMap escLt

/-- `value.replace(">", "&gt;")`. -/
def replaceGt (s : List Char) : List Char :=
  s.flatMap escGt

/-- `sanitize_input` of app.py (string branch; non-string input is outside
the `List Char` embedding): strip, remove control characters, escape the
two angle brackets, in that order. -/
def sanitize_input (s : List Char) : List Char :=
  replaceGt (replaceLt (removeCtl (pyStrip s)))

/-! ### `validate_email` (app.py, lines 36-41)

The source evaluates
`re.match(r"^[a-zA-Z0-9._%+-]+@[a-zA-Z0-9.-]+\.[a-zA-Z]{2,}$", email)`.
Since `@` belongs to none of the three character classes, the local part
of any match is exactly the maximal leading run of local characters, and
since the final `[a-zA-Z]{2,}` contains no dot, the `\.` of any match is
the last dot after the `@`.  The matcher below decides the pattern by that
split.  Python's `$` matches at the end of the string and also just before
a newline that ends the string, which `validate_email` reproduces. -/

/-- The class `[a-zA-Z0-9._%+-]` (ASCII, as in Python). -/
def isLocalChar (c : Char) : Bool :=
  c.isAlphanum || c = '.' || c = '_' || c = '%' || c = '+' || c = '-'

/-- The class `[a-zA-Z0-9.-]`. -/
def isDomainChar (c : Char) : Bool :=
  c.isAlphanum || c = '.' || c = '-'

/-- Decides `[a-zA-Z0-9.-]+\.[a-zA-Z]{2,}` against a whole string by
splitting at its last dot. -/
def domainTld (r : List Char) : Bool :=
  match r.reverse.dropWhile (fun c => c ≠ '.') with
  | [] => false
  | _ :: dRev =>
      let tRev := r.reverse.takeWhile (fun c => c ≠ '.')
      !dRev.isEmpty && dRev.all isDomainChar &&
        decide (2 ≤ tRev.length) && tRev.all Char.isAlpha

/-- Decides the full anchored pattern (with `$` read as end of input):
the maximal leading run of local characters must be nonempty and be
followed by `@`, and the remainder must match the domain pattern. -/
def matchesCore (s : List Char) : Bool :=
  match s.dropWhile isLocalChar with
  | c :: r => c = '@' && !(s.takeWhile isLocalChar).isEmpty && domainTld r
  | [] => false

/-- `validate_email` of app.py: the regex match, with Python's `$`
also accepting a single newline at the very end of the string. -/
def validate_email (s : List Char) : Bool :=
  matchesCore s || (decide (s.getLast? = some '\n') && matchesCore s.dropLast)

/-- The shape the specification describes in words: `local@domain.tld`
with a nonempty local part over `[A-Za-z0-9._%+-]`, a nonempty domain over
`[A-Za-z0-9.-]`, and a final label of two or more letters after the last
dot (the label being all letters, no further dot can follow it). -/
def specEmailForm (s : List Char) : Prop :=
  ∃ l d t, s = l ++ '@' :: (d ++ '.' :: t) ∧
    l ≠ [] ∧ (∀ c ∈ l, isLocalChar c) ∧
    d ≠ [] ∧ (∀ c ∈ d, isDomainChar c) ∧
    2 ≤ t.length ∧ (∀ c ∈ t, c.isAlpha)

/-! ### Data model (db_mongodb.py) -/

/-- Python's `email.lower()` on one character (ASCII range; the characters
Python additionally lowercases outside ASCII never pass `validate_email`). -/
def pyLowerChar (c : Char) : Char :=
  if 65 ≤ c.toNat ∧ c.toNat ≤ 90 then Char.ofNat (c.toNat + 32) else c

/-- Python's `email.lower()`. -/
def pyLower (s : String) : String :=
  ⟨s.data.map pyLowerChar⟩

/-- One document of the `entries` collection.  `save_entry` always writes
the `quantity` field, but a stored document may predate it, so the field
is optional; `entry.get("quantity", 2)` reads it with default 2. -/
structure Entry where
  email : String
  «show» : String
  quantity : Option Nat
  timestamp : Nat
deriving DecidableEq, Repr

/-- One document of the `logs` collection (always written with all five
fields by `save_entry` / `delete_entry`). -/
structure LogRecord where
  email : String
  «show» : String
  quantity : Nat
  action : String
  timestamp : Nat
deriving DecidableEq, Repr

/-- One self-reported tries record, written by the statistics flow. -/
structure TriesLogRecord where
  email : String
  «show» : String
  tries : Nat
  timestamp : Nat
deriving DecidableEq, Repr

/-- The persistent state: the two collections of db_mongodb.py plus the
tries-log storage the statistics flow writes to. -/
structure DB where
  entries : List Entry
  logs : List LogRecord
  triesLogs : List TriesLogRecord
deriving DecidableEq, Repr

/-- The value `get_entry` returns when a document is found. -/
structure GetResult where
  «show» : String
  quantity : Nat
deriving DecidableEq, Repr

/-- `collection.find_one({"email": key})`: first document with that email. -/
def findOne (es : List Entry) (key : String) : Option Entry :=
  es.find? (fun d => d.email = key)

/-- `collection.replace_one({"email": key}, doc, upsert=True)`: replaces the
first matching document, or appends `doc` when none matches.  Returns the
new collection together with the result's `matched_count` and whether
`upserted_id` is non-null. -/
def replaceOne : List Entry → String → Entry → List Entry × Nat × Bool
  | [], _, doc => ([doc], 0, true)
  | e :: rest, key, doc =>
      if e.email = key then (doc :: rest, 1, false)
      else
        let r := replaceOne rest key doc
        (e :: r.1, r.2)

/-- `collection.delete_one({"email": key})`: removes the first matching
document; returns the new collection and the result's `deleted_count`. -/
def deleteOne : List Entry → String → List Entry × Nat
  | [], _ => ([], 0)
  | e :: rest, key =>
      if e.email = key then (rest, 1)
      else
        let r := deleteOne rest key
        (e :: r.1, r.2)

/-! ### Store operations (db_mongodb.py) -/

/-- `save_entry(email, show, quantity=2)` of db_mongodb.py: look up the
prior entry to pick the log action, `replace_one` with upsert keyed by the
lowercased email, and when the write reports a match or an insert, append
one log document and return `True`; otherwise return `False`.  A raised
`PyMongoError` (`fault = true`) is caught and turned into `False`. -/
def save_entry (fault : Bool) (db : DB) (email «show» : String)
    (quantity : Nat := 2) (now : Nat := 0) : DB × Bool :=
  if fault then (db, false)
  else
    let key := pyLower email
    let existing := findOne db.entries key
    let action := if existing.isSome then "updated" else "submitted"
    let rep := replaceOne db.entries key ⟨key, «show», some quantity, now⟩
    if rep.2.1 > 0 || rep.2.2 then
      (⟨rep.1, db.logs ++ [⟨key, «show», quantity, action, now⟩], db.triesLogs⟩, true)
    else
      (⟨rep.1, db.logs, db.triesLogs⟩, false)

/-- `get_entry(email)` of db_mongodb.py: `find_one` on the lowercased
email; on a hit return the show and the quantity with default 2; a raised
`PyMongoError` is caught and turned into `None`. -/
def get_entry (fault : Bool) (db : DB) (email : String) : Option GetResult :=
  if fault then none
  else
    match findOne db.entries (pyLower email) with
    | some e => some ⟨e.«show», e.quantity.getD 2⟩
    | none => none

/-- `delete_entry(email)` of db_mongodb.py: `find_one` first (to know what
to log), then `delete_one`; when a document was found and the delete
reports `deleted_count > 0`, append one `cancelled` log document carrying
the pre-deletion show and quantity (default 2) and return `True`; in every
other case return `False`.  A raised `PyMongoError` is caught and turned
into `False`. -/
def delete_entry (fault : Bool) (db : DB) (email : String)
    (now : Nat := 0) : DB × Bool :=
  if fault then (db, false)
  else
    let key := pyLower email
    match findOne db.entries key with
    | some entry =>
        let del := deleteOne db.entries key
        if del.2 > 0 then
          (⟨del.1,
            db.logs ++ [⟨key, entry.«show», entry.quantity.getD 2, "cancelled", now⟩],
            db.triesLogs⟩, true)
        else
          (⟨del.1, db.logs, db.triesLogs⟩, false)
    | none => (db, false)

/-- `get_all_entries()` of db_mongodb.py: all entry documents in natural
order; a raised `PyMongoError` is caught and turned into `[]`. -/
def get_all_entries (fault : Bool) (db : DB) : List Entry :=
  if fault then [] else db.entries

/-- Insertion sort by descending timestamp, embedding the deterministic
core of `.sort("timestamp", -1)` (the store leaves ties unspecified). -/
def insertDesc (l : LogRecord) : List LogRecord → List LogRecord
  | [] => [l]
  | x :: xs => if x.timestamp ≤ l.timestamp then l :: x :: xs else x :: insertDesc l xs

/-- Sort log records newest first. -/
def sortDesc : List LogRecord → List LogRecord
  | [] => []
  | x :: xs => insertDesc x (sortDesc xs)

/-- `get_user_activity_log(email)` of db_mongodb.py: the log documents of
the lowercased email, newest first; on `PyMongoError`, `[]`. -/
def get_user_activity_log (fault : Bool) (db : DB) (email : String) : List LogRecord :=
  if fault then [] else sortDesc (db.logs.filter (fun l => l.email = pyLower email))

/-- `get_all_logs()` of db_mongodb.py: every log document, newest first;
on `PyMongoError`, `[]`. -/
def get_all_logs (fault : Bool) (db : DB) : List LogRecord :=
  if fault then [] else sortDesc db.logs

/-- `get_logs_by_action(action)` of db_mongodb.py: the log documents with
the given action, newest first; on `PyMongoError`, `[]`. -/
def get_logs_by_action (fault : Bool) (db : DB) (action : String) : List LogRecord :=
  if fault then [] else sortDesc (db.logs.filter (fun l => l.action = action))

/-- The distinct values of a key column in first-appearance order,
embedding the grouping step of a `$group` aggregation. -/
def distinctKeys (ks : List String) : List String :=
  ks.foldl (fun acc s => if s ∈ acc then acc else acc ++ [s]) []

/-- Insertion sort of `(key, count)` rows by descending count,
for the `{"$sort": {"count": -1}}` stage. -/
def insertCountDesc (p : String × Nat) : List (String × Nat) → List (String × Nat)
  | [] => [p]
  | x :: xs => if x.2 ≤ p.2 then p :: x :: xs else x :: insertCountDesc p xs

/-- Sort grouped rows by descending count. -/
def sortCountDesc : List (String × Nat) → List (String × Nat)
  | [] => []
  | x :: xs => insertCountDesc x (sortCountDesc xs)

/-- `get_show_statistics()` of db_mongodb.py: entries grouped by show with
their counts, sorted by descending count; on `PyMongoError`, `{}`. -/
def get_show_statistics (fault : Bool) (db : DB) : List (String × Nat) :=
  if fault then []
  else
    sortCountDesc ((distinctKeys (db.entries.map (fun e => e.«show»))).map
      (fun s => (s, (db.entries.filter (fun e => e.«show» = s)).length)))

/-- `get_activity_statistics()` of db_mongodb.py: log documents grouped by
action with their counts, sorted by descending count, with a final
`"total"` row holding the sum; on `PyMongoError`, `{}`. -/
def get_activity_statistics (fault : Bool) (db : DB) : List (String × Nat) :=
  if fault then []
  else
    let grouped := sortCountDesc ((distinctKeys (db.logs.map (fun l => l.action))).map
      (fun a => (a, (db.logs.filter (fun l => l.action = a)).length)))
    grouped ++ [("total", (grouped.map (fun p => p.2)).sum)]

/-- Modelled from the spec: `log_tries(email, show, tries)` is imported by
app.py but its definition is not part of the repository sources; spec
§4.3 says it "appends a TriesLogRecord; no dedup, no validation". -/
def log_tries (db : DB) (email «show» : String) (tries : Nat)
    (now : Nat := 0) : DB :=
  ⟨db.entries, db.logs, db.triesLogs ++ [⟨email, «show», tries, now⟩]⟩

/-- Modelled from the spec: `get_all_statistics()` is imported by app.py
but its definition is not part of the repository sources; spec §4.4 says
it maps each show to the arithmetic mean of its `tries` values and the
number of reports, grouped from TriesLogRecords, shows with zero reports
being absent, and §4.2's failure semantics turn a storage fault into an
empty mapping.  The mapping is embedded as a function from show names. -/
def get_all_statistics (fault : Bool) (db : DB) («show» : String) :
    Option (ℚ × Nat) :=
  if fault then none
  else
    let vals := (db.triesLogs.filter (fun r => r.«show» = «show»)).map
      (fun r => r.tries)
    if vals.isEmpty then none
    else some (((vals.sum : ℚ)) / ((vals.length : ℚ)), vals.length)

/-- The state of the specification's statistics example: exactly three
TriesLogRecords, all for show "WICKED", with tries 2, 4 and 6. -/
def wickedTries : DB :=
  ⟨[], [], [⟨"e1@x.co", "WICKED", 2, 1⟩, ⟨"e2@x.co", "WICKED", 4, 2⟩,
    ⟨"e3@x.co", "WICKED", 6, 3⟩]⟩

/-! ### Sequences of operations -/

/-- One state-mutating call against the store (fault-free). -/
inductive Op where
  | save (email «show» : String) (quantity now : Nat)
  | cancel (email : String) (now : Nat)
  | tries (email «show» : String) (n now : Nat)
deriving DecidableEq, Repr

/-- Apply one operation to the state. -/
def applyOp (db : DB) : Op → DB
  | .save e s q t => (save_entry false db e s q t).1
  | .cancel e t => (delete_entry false db e t).1
  | .tries e s n t => log_tries db e s n t

/-- Run a sequence of operations. -/
def runOps (db : DB) (ops : List Op) : DB :=
  ops.foldl applyOp db

/-- The entry-collection invariant: at most one entry per email key. -/
def goodDB (db : DB) : Prop :=
  ∀ k : String, (db.entries.filter (fun d => d.email = k)).length ≤ 1

/-- No ASCII uppercase letter anywhere in the string. -/
def noUpper (s : String) : Prop :=
  ∀ c ∈ s.data, ¬(65 ≤ c.toNat ∧ c.toNat ≤ 90)

/-- All emails stored in the `entries` and `logs` collections are
lowercase. -/
def lowerDB (db : DB) : Prop :=
  (∀ e ∈ db.entries, noUpper e.email) ∧ (∀ l ∈ db.logs, noUpper l.email)

/-! ### Helper lemmas about the sanitizer -/

theorem replaceLt_eq_self {s : List Char} (h : '<' ∉ s) : replaceLt s = s := by
  induction s with
  | nil => rfl
  | cons c cs ih =>
      have hc : c ≠ '<' := fun hc => h (hc ▸ List.mem_cons_self c cs)
      simp only [replaceLt, List.flatMap_cons] at *
      rw [escLt, if_neg (fun hcc => hc hcc)]
      simp only [List.singleton_append, List.cons.injEq, true_and]
      exact ih (fun hm => h (List.mem_cons_of_mem c hm))

theorem replaceGt_eq_self {s : List Char} (h : '>' ∉ s) : replaceGt s = s := by
  induction s with
  | nil => rfl
  | cons c cs ih =>
      have hc : c ≠ '>' := fun hc => h (hc ▸ List.mem_cons_self c cs)
      simp only [replaceGt, List.flatMap_cons] at *
      rw [escGt, if_neg (fun hcc => hc hcc)]
      simp only [List.singleton_append, List.cons.injEq, true_and]
      exact ih (fun hm => h (List.mem_cons_of_mem c hm))

theorem mem_replaceLt {c : Char} {s : List Char} (h : c ∈ replaceLt s) :
    c ∈ s ∨ c ∈ ['&', 'l', 't', ';'] := by
  rcases List.mem_flatMap.mp h with ⟨a, ha, hc⟩
  by_cases h1 : a = '<'
  · right; simpa [escLt, h1] using hc
  · left; rw [escLt, if_neg h1, List.mem_singleton] at hc; exact hc ▸ ha

theorem mem_replaceGt {c : Char} {s : List Char} (h : c ∈ replaceGt s) :
    c ∈ s ∨ c ∈ ['&', 'g', 't', ';'] := by
  rcases List.mem_flatMap.mp h with ⟨a, ha, hc⟩
  by_cases h1 : a = '>'
  · right; simpa [escGt, h1] using hc
  · left; rw [escGt, if_neg h1, List.mem_singleton] at hc; exact hc ▸ ha

theorem lt_not_mem_replaceLt (s : List Char) : '<' ∉ replaceLt s := by
  intro h
  rcases List.mem_flatMap.mp h with ⟨a, _, hc⟩
  by_cases h1 : a = '<'
  · simp [escLt, h1] at hc
  · rw [escLt, if_neg h1, List.mem_singleton] at hc; exact h1 hc.symm

theorem gt_not_mem_replaceGt (s : List Char) : '>' ∉ replaceGt s := by
  intro h
  rcases List.mem_flatMap.mp h with ⟨a, _, hc⟩
  by_cases h1 : a = '>'
  · simp [escGt, h1] at hc
  · rw [escGt, if_neg h1, List.mem_singleton] at hc; exact h1 hc.symm

theorem mem_pyStrip {c : Char} {s : List Char} (h : c ∈ pyStrip s) : c ∈ s := by
  unfold pyStrip at h
  rw [List.mem_reverse] at h
  have h2 := (List.dropWhile_sublist isPySpace).subset h
  rw [List.mem_reverse] at h2
  exact (List.dropWhile_sublist isPySpace).subset h2

theorem removeCtl_eq_self {s : List Char} (h : ∀ c ∈ s, isCtlChar c = false) :
    removeCtl s = s :=
  List.filter_eq_self.mpr (fun c hc => by rw [h c hc]; rfl)

theorem sanitize_input_no_ctl {c : Char} {s : List Char}
    (h : c ∈ sanitize_input s) : isCtlChar c = false := by
  unfold sanitize_input at h
  rcases mem_replaceGt h with h1 | h1
  · rcases mem_replaceLt h1 with h2 | h2
    · unfold removeCtl at h2
      have := List.of_mem_filter h2
      simpa using this
    · fin_cases h2 <;> decide
  · fin_cases h1 <;> decide

theorem sanitize_input_no_lt (s : List Char) : '<' ∉ sanitize_input s := by
  intro h
  rcases mem_replaceGt h with h1 | h1
  · exact lt_not_mem_replaceLt _ h1
  · exact absurd h1 (by decide)

theorem sanitize_input_no_gt (s : List Char) : '>' ∉ sanitize_input s :=
  gt_not_mem_replaceGt _

/-- A second application of the sanitizer only strips whitespace: the
output of the first application has no control characters and no angle
brackets left, so stripping is the only stage that can still act. -/
theorem sanitize_input_twice (s : List Char) :
    sanitize_input (sanitize_input s) = pyStrip (sanitize_input s) := by
  conv_lhs => rw [sanitize_input]
  rw [removeCtl_eq_self (fun c hc => sanitize_input_no_ctl (mem_pyStrip hc)),
    replaceLt_eq_self (fun hc => sanitize_input_no_lt s (mem_pyStrip hc)),
    replaceGt_eq_self (fun hc => sanitize_input_no_gt s (mem_pyStrip hc))]

theorem dropWhile_flatMap (p : Char → Bool) (f : Char → List Char)
    (h1 : ∀ c, p c = true → f c = [c])
    (h2 : ∀ c, p c = false → ∃ d ds, f c = d :: ds ∧ p d = false) :
    ∀ w : List Char, (w.flatMap f).dropWhile p = (w.dropWhile p).flatMap f := by
  intro w
  induction w with
  | nil => rfl
  | cons c cs ih =>
      by_cases hp : p c = true
      · rw [List.flatMap_cons, h1 c hp, List.singleton_append,
          List.dropWhile_cons_of_pos hp, List.dropWhile_cons_of_pos hp, ih]
      · have hp' : p c = false := by simpa using hp
        rcases h2 c hp' with ⟨d, ds, hf, hd⟩
        rw [List.flatMap_cons, hf, List.cons_append,
          List.dropWhile_cons_of_neg (by simp [hd]),
          List.dropWhile_cons_of_neg (by simp [hp']), List.flatMap_cons, hf,
          List.cons_append]

theorem pyStrip_flatMap (f : Char → List Char)
    (h1 : ∀ c, isPySpace c = true → f c = [c])
    (h2 : ∀ c, isPySpace c = false → ∃ d ds, f c = d :: ds ∧ isPySpace d = false)
    (h3 : ∀ c, isPySpace c = false →
      ∃ d ds, (f c).reverse = d :: ds ∧ isPySpace d = false)
    (w : List Char) :
    pyStrip (w.flatMap f) = (pyStrip w).flatMap f := by
  have h1' : ∀ c, isPySpace c = true → (List.reverse ∘ f) c = [c] := by
    intro c hc
    simp [Function.comp, h1 c hc]
  unfold pyStrip
  rw [dropWhile_flatMap _ f h1 h2 w, List.reverse_flatMap,
    dropWhile_flatMap _ _ h1' (fun c hc => h3 c hc), List.reverse_flatMap]
  congr 1
  funext c
  simp [Function.comp]

theorem pyStrip_replaceLt (w : List Char) :
    pyStrip (replaceLt w) = replaceLt (pyStrip w) := by
  refine pyStrip_flatMap escLt ?_ ?_ ?_ w
  · intro c hc
    rw [escLt, if_neg]
    intro h
    subst h
    exact absurd hc (by decide)
  · intro c hc
    by_cases h : c = '<'
    · subst h
      exact ⟨'&', ['l', 't', ';'], by rw [escLt, if_pos rfl], by decide⟩
    · exact ⟨c, [], by rw [escLt, if_neg h], hc⟩
  · intro c hc
    by_cases h : c = '<'
    · subst h
      exact ⟨';', ['t', 'l', '&'], by rw [escLt, if_pos rfl]; rfl, by decide⟩
    · exact ⟨c, [], by rw [escLt, if_neg h]; rfl, hc⟩

theorem pyStrip_replaceGt (w : List Char) :
    pyStrip (replaceGt w) = replaceGt (pyStrip w) := by
  refine pyStrip_flatMap escGt ?_ ?_ ?_ w
  · intro c hc
    rw [escGt, if_neg]
    intro h
    subst h
    exact absurd hc (by decide)
  · intro c hc
    by_cases h : c = '>'
    · subst h
      exact ⟨'&', ['g', 't', ';'], by rw [escGt, if_pos rfl], by decide⟩
    · exact ⟨c, [], by rw [escGt, if_neg h], hc⟩
  · intro c hc
    by_cases h : c = '>'
    · subst h
      exact ⟨';', ['t', 'g', '&'], by rw [escGt, if_pos rfl]; rfl, by decide⟩
    · exact ⟨c, [], by rw [escGt, if_neg h]; rfl, hc⟩

theorem dropWhile_eq_self_of_head? {p : Char → Bool} {x : List Char}
    (h : ∀ c, x.head? = some c → p c = false) : x.dropWhile p = x := by
  cases x with
  | nil => rfl
  | cons a l => exact List.dropWhile_cons_of_neg (by simp [h a rfl])

theorem pyStrip_eq_self {x : List Char}
    (hh : ∀ c, x.head? = some c → isPySpace c = false)
    (hl : ∀ c, x.getLast? = some c → isPySpace c = false) : pyStrip x = x := by
  unfold pyStrip
  rw [dropWhile_eq_self_of_head? hh,
    dropWhile_eq_self_of_head? (fun c hc => hl c (by rwa [List.head?_reverse] at hc)),
    List.reverse_reverse]

theorem head?_pyStrip {x : List Char} {c : Char}
    (h : (pyStrip x).head? = some c) : isPySpace c = false := by
  unfold pyStrip at h
  rw [List.head?_reverse] at h
  rcases List.dropWhile_suffix (l := (x.dropWhile isPySpace).reverse)
    (p := isPySpace) with ⟨t, ht⟩
  have hu : ((x.dropWhile isPySpace).reverse).getLast? = some c := by
    rw [← ht, List.getLast?_append, h]
    rfl
  rw [List.getLast?_reverse] at hu
  have hw := List.head?_dropWhile_not isPySpace x
  rw [hu] at hw
  exact hw

theorem getLast?_pyStrip {x : List Char} {c : Char}
    (h : (pyStrip x).getLast? = some c) : isPySpace c = false := by
  unfold pyStrip at h
  rw [List.getLast?_reverse] at h
  have hw := List.head?_dropWhile_not isPySpace (x.dropWhile isPySpace).reverse
  rw [h] at hw
  exact hw

theorem pyStrip_idem (x : List Char) : pyStrip (pyStrip x) = pyStrip x :=
  pyStrip_eq_self (fun _ hc => head?_pyStrip hc) (fun _ hc => getLast?_pyStrip hc)

/-- On a string with no control characters the sanitizer strips first and
then only escapes, and a repeated strip does nothing. -/
theorem sanitize_input_idem_of_no_ctl {s : List Char}
    (h : ∀ c ∈ s, isCtlChar c = false) :
    sanitize_input (sanitize_input s) = sanitize_input s := by
  have hs : sanitize_input s = replaceGt (replaceLt (pyStrip s)) := by
    rw [sanitize_input, removeCtl_eq_self (fun c hc => h c (mem_pyStrip hc))]
  rw [sanitize_input_twice, hs, pyStrip_replaceGt, pyStrip_replaceLt, pyStrip_idem]

/-! ### Helper lemmas about the email matcher -/

theorem takeWhile_append_cons {p : Char → Bool} {l r : List Char} {c : Char}
    (hl : ∀ x ∈ l, p x = true) (hc : p c = false) :
    (l ++ c :: r).takeWhile p = l ∧ (l ++ c :: r).dropWhile p = c :: r := by
  induction l with
  | nil =>
      simp only [List.nil_append]
      exact ⟨List.takeWhile_cons_of_neg (by simp [hc]),
        List.dropWhile_cons_of_neg (by simp [hc])⟩
  | cons a l ih =>
      have ha : p a = true := hl a (List.mem_cons_self a l)
      have hl' : ∀ x ∈ l, p x = true := fun x hx => hl x (List.mem_cons_of_mem a hx)
      rcases ih hl' with ⟨ht, hd⟩
      exact ⟨by rw [List.cons_append, List.takeWhile_cons_of_pos ha, ht],
        by rw [List.cons_append, List.dropWhile_cons_of_pos ha, hd]⟩

theorem domainTld_iff {r : List Char} :
    domainTld r = true ↔ ∃ d t, r = d ++ '.' :: t ∧ d ≠ [] ∧
      (∀ c ∈ d, isDomainChar c = true) ∧ 2 ≤ t.length ∧
      ∀ c ∈ t, c.isAlpha = true := by
  constructor
  · intro h
    unfold domainTld at h
    rcases hd : r.reverse.dropWhile (fun c => c ≠ '.') with _ | ⟨e, dRev⟩
    · rw [hd] at h
      simp at h
    · rw [hd] at h
      simp only [Bool.and_eq_true, Bool.not_eq_true', List.isEmpty_eq_false,
        decide_eq_true_eq, List.all_eq_true] at h
      have he : e = '.' := by
        have hw := List.head?_dropWhile_not (fun c : Char => decide (c ≠ '.')) r.reverse
        rw [hd] at hw
        simpa using hw
      subst he
      have hsplit : r.reverse = r.reverse.takeWhile (fun c => c ≠ '.') ++ '.' :: dRev := by
        rw [← hd, List.takeWhile_append_dropWhile]
      have hr : r = dRev.reverse ++ '.' :: (r.reverse.takeWhile (fun c => c ≠ '.')).reverse := by
        conv_lhs => rw [← List.reverse_reverse r, hsplit]
        rw [List.reverse_append, List.reverse_cons, List.append_assoc,
          List.singleton_append]
      refine ⟨dRev.reverse, (r.reverse.takeWhile (fun c => c ≠ '.')).reverse,
        hr, by simpa using h.1.1.1, ?_, by simpa using h.1.2, ?_⟩
      · intro c hc
        exact h.1.1.2 c (List.mem_reverse.mp hc)
      · intro c hc
        exact h.2 c (List.mem_reverse.mp hc)
  · rintro ⟨d, t, rfl, hd, hdc, ht2, hta⟩
    have hrev : (d ++ '.' :: t).reverse = t.reverse ++ '.' :: d.reverse := by
      simp
    have htq : ∀ x ∈ t.reverse, (decide (x ≠ '.')) = true := by
      intro x hx
      have hxa : x.isAlpha = true := hta x (List.mem_reverse.mp hx)
      simp only [decide_eq_true_eq]
      intro hxe
      subst hxe
      exact absurd hxa (by decide)
    rcases takeWhile_append_cons (c := '.') (r := d.reverse)
      (p := fun c => decide (c ≠ '.')) htq (by decide) with ⟨htw, hdw⟩
    unfold domainTld
    rw [hrev, htw, hdw]
    simp only [Bool.and_eq_true, Bool.not_eq_true', List.isEmpty_eq_false,
      decide_eq_true_eq, List.all_eq_true]
    refine ⟨⟨⟨by simpa using hd, fun c hc => hdc c (List.mem_reverse.mp hc)⟩,
      by simpa using ht2⟩, fun c hc => hta c (List.mem_reverse.mp hc)⟩

theorem matchesCore_iff {s : List Char} :
    matchesCore s = true ↔ specEmailForm s := by
  constructor
  · intro h
    unfold matchesCore at h
    rcases hd : s.dropWhile isLocalChar with _ | ⟨c, r⟩
    · rw [hd] at h
      simp at h
    · rw [hd] at h
      simp only [Bool.and_eq_true, Bool.not_eq_true', List.isEmpty_eq_false,
        decide_eq_true_eq] at h
      rcases h with ⟨⟨hc, hne⟩, hdom⟩
      subst hc
      rcases domainTld_iff.mp hdom with ⟨d, t, hr, hdn, hdc, ht2, hta⟩
      subst hr
      refine ⟨s.takeWhile isLocalChar, d, t, ?_, hne, ?_, hdn, hdc, ht2, hta⟩
      · rw [← hd, List.takeWhile_append_dropWhile]
      · intro c hc
        exact List.mem_takeWhile_imp hc
  · rintro ⟨l, d, t, rfl, hl, hlc, hdn, hdc, ht2, hta⟩
    rcases takeWhile_append_cons (c := '@') (r := d ++ '.' :: t)
      (p := isLocalChar) hlc (by decide) with ⟨htw, hdw⟩
    unfold matchesCore
    rw [hdw, htw]
    simp only [Bool.and_eq_true, Bool.not_eq_true', List.isEmpty_eq_false,
      decide_eq_true_eq, decide_True, Bool.true_and]
    exact ⟨hl, domainTld_iff.mpr ⟨d, t, rfl, hdn, hdc, ht2, hta⟩⟩

theorem validate_email_iff {s : List Char} :
    validate_email s = true ↔
      specEmailForm s ∨ ∃ s₀, s = s₀ ++ ['\n'] ∧ specEmailForm s₀ := by
  unfold validate_email
  simp only [Bool.or_eq_true, Bool.and_eq_true, decide_eq_true_eq]
  constructor
  · rintro (h | ⟨hl, hm⟩)
    · exact Or.inl (matchesCore_iff.mp h)
    · refine Or.inr ⟨s.dropLast, ?_, matchesCore_iff.mp hm⟩
      have hne : s ≠ [] := by
        rintro rfl
        simp at hl
      have hg : s.getLast hne = '\n' := by
        rw [List.getLast?_eq_getLast s hne] at hl
        exact Option.some.inj hl
      conv_lhs => rw [← List.dropLast_concat_getLast hne, hg]
  · rintro (h | ⟨s₀, rfl, h⟩)
    · exact Or.inl (matchesCore_iff.mpr h)
    · refine Or.inr ⟨List.getLast?_concat s₀, ?_⟩
      rw [List.dropLast_concat]
      exact matchesCore_iff.mpr h

/-! ### Helper lemmas about the store -/

theorem char_toNat_ofNat_lt {n : Nat} (h : n < 55296) : (Char.ofNat n).toNat = n := by
  rw [Char.ofNat, dif_pos (Or.inl (by omega))]
  rfl

theorem pyLower_noUpper (s : String) : noUpper (pyLower s) := by
  intro c hc
  rcases List.mem_map.mp hc with ⟨a, _, rfl⟩
  unfold pyLowerChar
  by_cases h : 65 ≤ a.toNat ∧ a.toNat ≤ 90
  · rw [if_pos h, char_toNat_ofNat_lt (by omega)]
    omega
  · rw [if_neg h]
    exact h

theorem findOne_eq_none {es : List Entry} {key : String} :
    findOne es key = none ↔ ∀ x ∈ es, x.email ≠ key := by
  simp [findOne, List.find?_eq_none]

theorem replaceOne_report (es : List Entry) (key : String) (doc : Entry) :
    0 < (replaceOne es key doc).2.1 ∨ (replaceOne es key doc).2.2 = true := by
  induction es with
  | nil => exact Or.inr rfl
  | cons e rest ih =>
      by_cases h : e.email = key
      · left
        simp [replaceOne, h]
      · simpa [replaceOne, h] using ih

theorem replaceOne_of_not_mem {es : List Entry} {key : String} (doc : Entry)
    (h : ∀ x ∈ es, x.email ≠ key) :
    replaceOne es key doc = (es ++ [doc], 0, true) := by
  induction es with
  | nil => rfl
  | cons e rest ih =>
      have he : e.email ≠ key := h e (List.mem_cons_self e rest)
      rw [replaceOne, if_neg he, ih (fun x hx => h x (List.mem_cons_of_mem e hx))]
      rfl

theorem replaceOne_findOne_self {es : List Entry} {key : String} {doc : Entry}
    (hdoc : doc.email = key) :
    findOne (replaceOne es key doc).1 key = some doc := by
  induction es with
  | nil =>
      simp [replaceOne, findOne, List.find?_cons_of_pos, hdoc]
  | cons e rest ih =>
      by_cases h : e.email = key
      · rw [replaceOne, if_pos h]
        simp [findOne, List.find?_cons_of_pos, hdoc]
      · rw [replaceOne, if_neg h]
        show List.find? (fun d => decide (d.email = key))
          (e :: (replaceOne rest key doc).1) = some doc
        rw [List.find?_cons_of_neg _ (by simpa using h)]
        exact ih

theorem replaceOne_filter_ne {es : List Entry} {key k : String} {doc : Entry}
    (hdoc : doc.email = key) (hk : k ≠ key) :
    (replaceOne es key doc).1.filter (fun d => d.email = k) =
      es.filter (fun d => d.email = k) := by
  have hdk : (decide (doc.email = k)) = false := by
    simp only [decide_eq_false_iff_not, hdoc]
    exact fun hh => hk hh.symm
  induction es with
  | nil =>
      simp [replaceOne, List.filter_cons, hdk]
  | cons e rest ih =>
      by_cases h : e.email = key
      · rw [replaceOne, if_pos h]
        have h2 : (decide (e.email = k)) = false := by
          simp only [decide_eq_false_iff_not, h]
          exact fun hh => hk hh.symm
        simp [List.filter_cons, hdk, h2]
      · rw [replaceOne, if_neg h]
        show List.filter (fun d => decide (d.email = k)) (e :: (replaceOne rest key doc).1) =
          List.filter (fun d => decide (d.email = k)) (e :: rest)
        rw [List.filter_cons, List.filter_cons, ih]

theorem replaceOne_filter_self_length {es : List Entry} {key : String} {doc : Entry}
    (hdoc : doc.email = key) :
    ((replaceOne es key doc).1.filter (fun d => d.email = key)).length =
      max 1 (es.filter (fun d => d.email = key)).length := by
  induction es with
  | nil =>
      simp [replaceOne, List.filter_cons, hdoc]
  | cons e rest ih =>
      by_cases h : e.email = key
      · rw [replaceOne, if_pos h]
        have h1 : (decide (doc.email = key)) = true := by simpa using hdoc
        have h2 : (decide (e.email = key)) = true := by simpa using h
        simp [List.filter_cons, h1, h2]
      · rw [replaceOne, if_neg h]
        show ((List.filter (fun d => decide (d.email = key))
            (e :: (replaceOne rest key doc).1)).length) = _
        have h2 : (decide (e.email = key)) = false := by simpa using h
        rw [List.filter_cons, h2, List.filter_cons, h2]
        exact ih

theorem mem_replaceOne {x : Entry} {es : List Entry} {key : String} {doc : Entry}
    (h : x ∈ (replaceOne es key doc).1) : x ∈ es ∨ x = doc := by
  induction es with
  | nil =>
      simpa [replaceOne] using h
  | cons e rest ih =>
      by_cases he : e.email = key
      · rw [replaceOne, if_pos he] at h
        rcases List.mem_cons.mp h with h | h
        · exact Or.inr h
        · exact Or.inl (List.mem_cons_of_mem e h)
      · rw [replaceOne, if_neg he] at h
        rcases List.mem_cons.mp h with h | h
        · exact Or.inl (h ▸ List.mem_cons_self e rest)
        · rcases ih h with h | h
          · exact Or.inl (List.mem_cons_of_mem e h)
          · exact Or.inr h

theorem replaceOne_append_not_mem {es l : List Entry} {key : String} {doc : Entry}
    (h : ∀ x ∈ es, x.email ≠ key) :
    replaceOne (es ++ l) key doc =
      (es ++ (replaceOne l key doc).1, (replaceOne l key doc).2) := by
  induction es with
  | nil => simp
  | cons e rest ih =>
      have he : e.email ≠ key := h e (List.mem_cons_self e rest)
      rw [List.cons_append, replaceOne, if_neg he,
        ih (fun x hx => h x (List.mem_cons_of_mem e hx))]
      rfl

theorem deleteOne_filter_self (es : List Entry) (key : String) :
    (deleteOne es key).1.filter (fun d => d.email = key) =
      (es.filter (fun d => d.email = key)).tail := by
  induction es with
  | nil => rfl
  | cons e rest ih =>
      by_cases h : e.email = key
      · rw [deleteOne, if_pos h]
        have h2 : (decide (e.email = key)) = true := by simpa using h
        simp [List.filter_cons, h2]
      · rw [deleteOne, if_neg h]
        show List.filter (fun d => decide (d.email = key)) (e :: (deleteOne rest key).1) = _
        have h2 : (decide (e.email = key)) = false := by simpa using h
        rw [List.filter_cons, h2, List.filter_cons, h2]
        exact ih

theorem deleteOne_filter_ne {es : List Entry} {key k : String} (hk : k ≠ key) :
    (deleteOne es key).1.filter (fun d => d.email = k) =
      es.filter (fun d => d.email = k) := by
  induction es with
  | nil => rfl
  | cons e rest ih =>
      by_cases h : e.email = key
      · rw [deleteOne, if_pos h]
        have h2 : (decide (e.email = k)) = false := by
          simp only [decide_eq_false_iff_not, h]
          exact fun hh => hk hh.symm
        simp [List.filter_cons, h2]
      · rw [deleteOne, if_neg h]
        show List.filter (fun d => decide (d.email = k)) (e :: (deleteOne rest key).1) = _
        rw [List.filter_cons, List.filter_cons, ih]

theorem deleteOne_of_findOne_some {es : List Entry} {key : String} {ent : Entry}
    (h : findOne es key = some ent) :
    (deleteOne es key).2 = 1 ∧ (deleteOne es key).1.length + 1 = es.length := by
  induction es with
  | nil => simp [findOne] at h
  | cons e rest ih =>
      by_cases he : e.email = key
      · rw [deleteOne, if_pos he]
        exact ⟨rfl, rfl⟩
      · rw [findOne, List.find?_cons_of_neg _ (by simpa using he)] at h
        rw [deleteOne, if_neg he]
        rcases ih h with ⟨h1, h2⟩
        exact ⟨h1, by simpa using h2⟩

theorem mem_deleteOne {x : Entry} {es : List Entry} {key : String}
    (h : x ∈ (deleteOne es key).1) : x ∈ es := by
  induction es with
  | nil => simp [deleteOne] at h
  | cons e rest ih =>
      by_cases he : e.email = key
      · rw [deleteOne, if_pos he] at h
        exact List.mem_cons_of_mem e h
      · rw [deleteOne, if_neg he] at h
        rcases List.mem_cons.mp h with h | h
        · exact h ▸ List.mem_cons_self e rest
        · exact List.mem_cons_of_mem e (ih h)

/-- The fault-free `save_entry` always takes the success branch: the
upsert reports a match or an insert on every state. -/
theorem save_entry_eq (db : DB) (e s : String) (q t : Nat) :
    save_entry false db e s q t =
      (⟨(replaceOne db.entries (pyLower e) ⟨pyLower e, s, some q, t⟩).1,
        db.logs ++ [⟨pyLower e, s, q,
          if (findOne db.entries (pyLower e)).isSome then "updated" else "submitted",
          t⟩],
        db.triesLogs⟩, true) := by
  unfold save_entry
  rcases replaceOne_report db.entries (pyLower e) ⟨pyLower e, s, some q, t⟩ with h | h <;>
    simp [h]

theorem delete_entry_eq_some {db : DB} {e : String} {ent : Entry} (t : Nat)
    (h : findOne db.entries (pyLower e) = some ent) :
    delete_entry false db e t =
      (⟨(deleteOne db.entries (pyLower e)).1,
        db.logs ++ [⟨pyLower e, ent.«show», ent.quantity.getD 2, "cancelled", t⟩],
        db.triesLogs⟩, true) := by
  have hc := (deleteOne_of_findOne_some h).1
  simp [delete_entry, h, hc]

theorem delete_entry_eq_none {db : DB} {e : String} (t : Nat)
    (h : findOne db.entries (pyLower e) = none) :
    delete_entry false db e t = (db, false) := by
  simp [delete_entry, h]

/-! ### Preservation of the state invariants -/

theorem goodDB_save (db : DB) (e s : String) (q t : Nat) (h : goodDB db) :
    goodDB (save_entry false db e s q t).1 := by
  rw [save_entry_eq]
  intro k
  by_cases hk : k = pyLower e
  · subst hk
    rw [@replaceOne_filter_self_length db.entries (pyLower e)
      ⟨pyLower e, s, some q, t⟩ rfl]
    exact Nat.max_le.mpr ⟨Nat.le_refl 1, h _⟩
  · rw [@replaceOne_filter_ne db.entries (pyLower e) k
      ⟨pyLower e, s, some q, t⟩ rfl hk]
    exact h k

theorem goodDB_delete (db : DB) (e : String) (t : Nat) (h : goodDB db) :
    goodDB (delete_entry false db e t).1 := by
  rcases hfind : findOne db.entries (pyLower e) with _ | ent
  · rw [delete_entry_eq_none t hfind]
    exact h
  · rw [delete_entry_eq_some t hfind]
    intro k
    by_cases hk : k = pyLower e
    · subst hk
      rw [deleteOne_filter_self, List.length_tail]
      have := h (pyLower e)
      omega
    · rw [deleteOne_filter_ne hk]
      exact h k

theorem goodDB_applyOp (db : DB) (op : Op) (h : goodDB db) :
    goodDB (applyOp db op) := by
  cases op with
  | save e s q t => exact goodDB_save db e s q t h
  | cancel e t => exact goodDB_delete db e t h
  | tries e s n t => exact h

theorem goodDB_runOps (ops : List Op) : ∀ db : DB, goodDB db → goodDB (runOps db ops) := by
  induction ops with
  | nil => exact fun db h => h
  | cons op ops ih =>
      intro db h
      rw [runOps, List.foldl_cons]
      exact ih (applyOp db op) (goodDB_applyOp db op h)

theorem lowerDB_save (db : DB) (e s : String) (q t : Nat) (h : lowerDB db) :
    lowerDB (save_entry false db e s q t).1 := by
  rw [save_entry_eq]
  constructor
  · intro x hx
    rcases mem_replaceOne hx with hx | hx
    · exact h.1 x hx
    · rw [hx]
      exact pyLower_noUpper e
  · intro l hl
    rcases List.mem_append.mp hl with hl | hl
    · exact h.2 l hl
    · rw [List.mem_singleton.mp hl]
      exact pyLower_noUpper e

theorem lowerDB_delete (db : DB) (e : String) (t : Nat) (h : lowerDB db) :
    lowerDB (delete_entry false db e t).1 := by
  rcases hfind : findOne db.entries (pyLower e) with _ | ent
  · rw [delete_entry_eq_none t hfind]
    exact h
  · rw [delete_entry_eq_some t hfind]
    constructor
    · intro x hx
      exact h.1 x (mem_deleteOne hx)
    · intro l hl
      rcases List.mem_append.mp hl with hl | hl
      · exact h.2 l hl
      · rw [List.mem_singleton.mp hl]
        exact pyLower_noUpper e

theorem lowerDB_applyOp (db : DB) (op : Op) (h : lowerDB db) :
    lowerDB (applyOp db op) := by
  cases op with
  | save e s q t => exact lowerDB_save db e s q t h
  | cancel e t => exact lowerDB_delete db e t h
  | tries e s n t => exact ⟨h.1, h.2⟩

theorem lowerDB_runOps (ops : List Op) : ∀ db : DB, lowerDB db → lowerDB (runOps db ops) := by
  induction ops with
  | nil => exact fun db h => h
  | cons op ops ih =>
      intro db h
      rw [runOps, List.foldl_cons]
      exact ih (applyOp db op) (lowerDB_applyOp db op h)

/-! ### Claim theorems -/

/-- C1: for every email `e`, show `s` and quantity `q`, the fault-free
`save_entry` lowercases `e`, replaces-or-inserts the entry keyed by the
lowercased email (the key now holds exactly the new document and every
other key is untouched), appends exactly one log record whose action is
`"updated"` when an entry for the lowercased email existed before the call
and `"submitted"` otherwise, and returns `False` exactly when the write
reports neither a match nor an insert — a branch that is unreachable, so
the call returns `True`. -/
theorem save_entry_correct (db : DB) (e s : String) (q t : Nat) :
    (save_entry false db e s q t).2 = true ∧
    ((save_entry false db e s q t).2 = false ↔
      ((replaceOne db.entries (pyLower e) ⟨pyLower e, s, some q, t⟩).2.1 = 0 ∧
       (replaceOne db.entries (pyLower e) ⟨pyLower e, s, some q, t⟩).2.2 = false)) ∧
    findOne (save_entry false db e s q t).1.entries (pyLower e) =
      some ⟨pyLower e, s, some q, t⟩ ∧
    (∀ k, k ≠ pyLower e →
      (save_entry false db e s q t).1.entries.filter (fun d => d.email = k) =
        db.entries.filter (fun d => d.email = k)) ∧
    (save_entry false db e s q t).1.logs =
      db.logs ++ [⟨pyLower e, s, q,
        if (findOne db.entries (pyLower e)).isSome then "updated" else "submitted",
        t⟩] ∧
    (save_entry false db e s q t).1.triesLogs = db.triesLogs := by
  rw [save_entry_eq]
  refine ⟨rfl, ?_, ?_, ?_, rfl, rfl⟩
  · constructor
    · intro h
      exact absurd h (by simp)
    · intro h
      rcases replaceOne_report db.entries (pyLower e) ⟨pyLower e, s, some q, t⟩ with
        hr | hr
      · omega
      · rw [h.2] at hr
        exact absurd hr (by simp)
  · exact replaceOne_findOne_self rfl
  · intro k hk
    exact @replaceOne_filter_ne db.entries (pyLower e) k ⟨pyLower e, s, some q, t⟩
      rfl hk

/-- Witness for C1 at a concrete state holding an unrelated entry. -/
theorem save_entry_correct_witness :
    (save_entry false ⟨[⟨"z@z.co", "SIX", some 1, 0⟩], [], []⟩
      "USER@Example.COM" "WICKED" 2 5).2 = true ∧
    (save_entry false ⟨[⟨"z@z.co", "SIX", some 1, 0⟩], [], []⟩
      "USER@Example.COM" "WICKED" 2 5).1.entries.filter
        (fun d => d.email = "z@z.co") =
      [⟨"z@z.co", "SIX", some 1, 0⟩] := by
  have h := save_entry_correct ⟨[⟨"z@z.co", "SIX", some 1, 0⟩], [], []⟩
    "USER@Example.COM" "WICKED" 2 5
  refine ⟨h.1, ?_⟩
  rw [h.2.2.2.1 "z@z.co" (by decide)]
  decide

/-- C4: the fault-free `delete_entry` returns `True` exactly when an entry
for the lowercased email exists; when one exists, exactly one `"cancelled"`
log record carrying the pre-deletion show and quantity is appended, the
matched entry is removed (the collection shrinks by one, the key's bucket
loses its first document, other keys are untouched); when none exists the
state is returned unchanged with `False`. -/
theorem delete_entry_correct (db : DB) (e : String) (t : Nat) :
    ((delete_entry false db e t).2 = (findOne db.entries (pyLower e)).isSome) ∧
    (∀ ent, findOne db.entries (pyLower e) = some ent →
      (delete_entry false db e t).1.logs =
        db.logs ++ [⟨pyLower e, ent.«show», ent.quantity.getD 2, "cancelled", t⟩] ∧
      (delete_entry false db e t).1.entries.length + 1 = db.entries.length ∧
      (delete_entry false db e t).1.entries.filter (fun d => d.email = pyLower e) =
        (db.entries.filter (fun d => d.email = pyLower e)).tail ∧
      (∀ k, k ≠ pyLower e →
        (delete_entry false db e t).1.entries.filter (fun d => d.email = k) =
          db.entries.filter (fun d => d.email = k)) ∧
      (delete_entry false db e t).1.triesLogs = db.triesLogs) ∧
    (findOne db.entries (pyLower e) = none → (delete_entry false db e t).1 = db) := by
  rcases hfind : findOne db.entries (pyLower e) with _ | ent
  · rw [delete_entry_eq_none t hfind]
    exact ⟨rfl, fun ent hent => Option.noConfusion hent, fun _ => rfl⟩
  · rw [delete_entry_eq_some t hfind]
    refine ⟨rfl, ?_, fun h => Option.noConfusion h⟩
    intro ent' hent'
    have he : ent' = ent := (Option.some.inj hent').symm
    subst he
    refine ⟨rfl, (deleteOne_of_findOne_some hfind).2, deleteOne_filter_self _ _,
      ?_, rfl⟩
    intro k hk
    exact deleteOne_filter_ne hk

/-- Witness for C4: deleting an existing entry and a missing one. -/
theorem delete_entry_correct_witness :
    (delete_entry false ⟨[⟨"a@b.co", "WICKED", some 2, 1⟩], [], []⟩ "A@B.CO" 7).1.logs =
      ([] : List LogRecord) ++ [⟨"a@b.co", "WICKED", 2, "cancelled", 7⟩] ∧
    (delete_entry false ⟨[], [], []⟩ "a@b.co" 3).1 = ⟨[], [], []⟩ := by
  refine ⟨?_, ?_⟩
  · exact ((delete_entry_correct ⟨[⟨"a@b.co", "WICKED", some 2, 1⟩], [], []⟩
      "A@B.CO" 7).2.1 ⟨"a@b.co", "WICKED", some 2, 1⟩ (by decide)).1
  · exact (delete_entry_correct ⟨[], [], []⟩ "a@b.co" 3).2.2 rfl

/-- C6: an entry saved under any casing of an email is returned by
`get_entry` under any other casing with the same lowercase form, carrying
the saved show and quantity. -/
theorem save_then_get (db : DB) (e1 e2 s : String) (q t : Nat)
    (h : pyLower e1 = pyLower e2) :
    get_entry false (save_entry false db e1 s q t).1 e2 = some ⟨s, q⟩ := by
  rw [save_entry_eq, get_entry]
  rw [if_neg (by simp)]
  have hf : findOne (replaceOne db.entries (pyLower e1)
      ⟨pyLower e1, s, some q, t⟩).1 (pyLower e2) =
      some ⟨pyLower e1, s, some q, t⟩ := by
    rw [← h]
    exact replaceOne_findOne_self rfl
  rw [hf]
  rfl

/-- Witness for C6 at the specification's own example pair of casings. -/
theorem save_then_get_witness :
    get_entry false (save_entry false ⟨[], [], []⟩
      "USER@Example.COM" "WICKED" 2 1).1 "user@example.com" =
      some ⟨"WICKED", 2⟩ :=
  save_then_get ⟨[], [], []⟩ "USER@Example.COM" "user@example.com" "WICKED" 2 1
    (by decide)

/-- C5: saving twice under the same email (fresh before the first call)
with two different shows leaves exactly one entry under the normalized
email — the second call's show and quantity — while the log gains exactly
two records, `"submitted"` then `"updated"`; and after every sequence of
operations from a state with at most one entry per normalized email, the
state still has at most one entry per normalized email. -/
theorem save_entry_twice_unique (db : DB) (e s1 s2 : String) (q1 q2 t1 t2 : Nat)
    (hfresh : findOne db.entries (pyLower e) = none) (_hss : s1 ≠ s2) :
    ((save_entry false (save_entry false db e s1 q1 t1).1 e s2 q2 t2).1.entries.filter
        (fun d => d.email = pyLower e) =
      [⟨pyLower e, s2, some q2, t2⟩] ∧
     (save_entry false (save_entry false db e s1 q1 t1).1 e s2 q2 t2).1.logs =
      db.logs ++ [⟨pyLower e, s1, q1, "submitted", t1⟩,
        ⟨pyLower e, s2, q2, "updated", t2⟩]) ∧
    ∀ (db0 : DB) (ops : List Op), goodDB db0 → goodDB (runOps db0 ops) := by
  have hnm : ∀ x ∈ db.entries, x.email ≠ pyLower e := findOne_eq_none.mp hfresh
  have hfind0 : List.find? (fun d => decide (d.email = pyLower e)) db.entries =
      none := hfresh
  have hdb1 : (save_entry false db e s1 q1 t1).1 =
      ⟨db.entries ++ [⟨pyLower e, s1, some q1, t1⟩],
       db.logs ++ [⟨pyLower e, s1, q1, "submitted", t1⟩], db.triesLogs⟩ := by
    rw [save_entry_eq, replaceOne_of_not_mem _ hnm, hfresh]
    rfl
  have hfind1 : findOne (save_entry false db e s1 q1 t1).1.entries (pyLower e) =
      some ⟨pyLower e, s1, some q1, t1⟩ := by
    rw [hdb1]
    show List.find? (fun d => decide (d.email = pyLower e))
      (db.entries ++ [⟨pyLower e, s1, some q1, t1⟩]) = _
    rw [List.find?_append, hfind0, Option.none_or,
      List.find?_cons_of_pos _ (by simp)]
  have hdb2 : (save_entry false (save_entry false db e s1 q1 t1).1 e s2 q2 t2).1 =
      ⟨db.entries ++ [⟨pyLower e, s2, some q2, t2⟩],
       db.logs ++ [⟨pyLower e, s1, q1, "submitted", t1⟩,
         ⟨pyLower e, s2, q2, "updated", t2⟩], db.triesLogs⟩ := by
    rw [save_entry_eq, hfind1, hdb1, replaceOne_append_not_mem hnm,
      show replaceOne [⟨pyLower e, s1, some q1, t1⟩] (pyLower e)
          ⟨pyLower e, s2, some q2, t2⟩ =
        ([⟨pyLower e, s2, some q2, t2⟩], 1, false) from by rw [replaceOne, if_pos rfl]]
    simp
  refine ⟨⟨?_, ?_⟩, fun db0 ops h0 => goodDB_runOps ops db0 h0⟩
  · rw [hdb2]
    show List.filter (fun d => decide (d.email = pyLower e))
      (db.entries ++ [⟨pyLower e, s2, some q2, t2⟩]) = _
    rw [List.filter_append,
      List.filter_eq_nil_iff.mpr (fun x hx => by simpa using hnm x hx),
      List.nil_append, List.filter_cons]
    simp
  · rw [hdb2]

/-- Witness for C5 from the empty state. -/
theorem save_entry_twice_unique_witness :
    ((save_entry false (save_entry false ⟨[], [], []⟩ "A@B.co" "WICKED" 2 1).1
        "A@B.co" "SIX" 1 2).1.entries.filter (fun d => d.email = "a@b.co") =
      [⟨"a@b.co", "SIX", some 1, 2⟩] ∧
     (save_entry false (save_entry false ⟨[], [], []⟩ "A@B.co" "WICKED" 2 1).1
        "A@B.co" "SIX" 1 2).1.logs =
      [⟨"a@b.co", "WICKED", 2, "submitted", 1⟩, ⟨"a@b.co", "SIX", 1, "updated", 2⟩]) ∧
    goodDB (runOps ⟨[], [], []⟩ [Op.save "x@y.co" "SIX" 1 0]) := by
  have h := save_entry_twice_unique ⟨[], [], []⟩ "A@B.co" "WICKED" "SIX" 2 1 1 2
    rfl (by decide)
  refine ⟨⟨?_, ?_⟩, h.2 ⟨[], [], []⟩ [Op.save "x@y.co" "SIX" 1 0]
    (fun _ => Nat.zero_le 1)⟩
  · rw [show ("a@b.co" : String) = pyLower "A@B.co" from by decide]
    exact h.1.1
  · rw [show ([⟨"a@b.co", "WICKED", 2, "submitted", 1⟩,
      ⟨"a@b.co", "SIX", 1, "updated", 2⟩] : List LogRecord) =
        [] ++ [⟨pyLower "A@B.co", "WICKED", 2, "submitted", 1⟩,
          ⟨pyLower "A@B.co", "SIX", 1, "updated", 2⟩] from by decide]
    exact h.1.2

/-- C2 counterexample: the claim that `sanitize` is idempotent on every
string fails.  On the string NUL, space, `a` the strip stage runs before
control-character removal, so the first application returns space, `a`
with a leading space, and the second application strips it. -/
theorem sanitize_input_not_idempotent :
    sanitize_input (sanitize_input [Char.ofNat 0, ' ', 'a']) ≠
      sanitize_input [Char.ofNat 0, ' ', 'a'] := by
  decide

/-- C2 amended: one application of `sanitize_input` removes every control
character and leaves no angle bracket; a second application only strips
whitespace exposed at the ends by control-character removal, so
`sanitize(sanitize x) = strip(sanitize x)` for every string, and
idempotence holds on every string without control characters. -/
theorem sanitize_input_amended (s : List Char) :
    (∀ c ∈ sanitize_input s, isCtlChar c = false) ∧
    '<' ∉ sanitize_input s ∧ '>' ∉ sanitize_input s ∧
    sanitize_input (sanitize_input s) = pyStrip (sanitize_input s) ∧
    ((∀ c ∈ s, isCtlChar c = false) →
      sanitize_input (sanitize_input s) = sanitize_input s) :=
  ⟨fun _ hc => sanitize_input_no_ctl hc, sanitize_input_no_lt s,
   sanitize_input_no_gt s, sanitize_input_twice s,
   fun h => sanitize_input_idem_of_no_ctl h⟩

/-- Witness for the amended C2 on a control-free string with markup. -/
theorem sanitize_input_amended_witness :
    isCtlChar '&' = false ∧
    sanitize_input (sanitize_input (' ' :: 'a' :: '<' :: 'b' :: [])) =
      sanitize_input (' ' :: 'a' :: '<' :: 'b' :: []) :=
  ⟨(sanitize_input_amended (' ' :: 'a' :: '<' :: 'b' :: [])).1 '&' (by decide),
   (sanitize_input_amended (' ' :: 'a' :: '<' :: 'b' :: [])).2.2.2.2 (by decide)⟩

/-- C3: `get_all_statistics` (modelled from the spec, the function being
absent from the sources) maps each show with at least one TriesLogRecord
to the arithmetic mean of its tries values and the number of reports,
omits shows with no reports, and on the three WICKED records with tries
2, 4, 6 yields exactly the mapping WICKED to (mean 4, count 3). -/
theorem get_all_statistics_spec :
    (∀ (db : DB) (s : String),
      (db.triesLogs.filter (fun r => r.«show» = s) ≠ [] →
        get_all_statistics false db s =
          some (((((db.triesLogs.filter (fun r => r.«show» = s)).map
              (fun r => r.tries)).sum : ℚ)) /
            (((db.triesLogs.filter (fun r => r.«show» = s)).length : ℚ)),
            (db.triesLogs.filter (fun r => r.«show» = s)).length)) ∧
      (db.triesLogs.filter (fun r => r.«show» = s) = [] →
        get_all_statistics false db s = none)) ∧
    get_all_statistics false wickedTries "WICKED" = some (4, 3) ∧
    (∀ s, s ≠ "WICKED" → get_all_statistics false wickedTries s = none) := by
  refine ⟨?_, ?_, ?_⟩
  · intro db s
    constructor
    · intro hne
      simp [get_all_statistics, List.map_eq_nil_iff, hne, List.length_map]
    · intro h0
      simp [get_all_statistics, h0]
  · simp [get_all_statistics, List.filter]
    norm_num
  · intro s hs
    have h : ¬("WICKED" = s) := fun hh => hs hh.symm
    simp [get_all_statistics, wickedTries, List.filter, h]

/-- Witness for C3: a show without reports is absent from the mapping. -/
theorem get_all_statistics_spec_witness :
    get_all_statistics false wickedTries "SIX" = none ∧
    get_all_statistics false ⟨[], [], []⟩ "WICKED" = none :=
  ⟨get_all_statistics_spec.2.2 "SIX" (by decide),
   (get_all_statistics_spec.1 ⟨[], [], []⟩ "WICKED").2 rfl⟩

/-- C7 counterexample: acceptance is not exactly the `local@domain.tld`
shape — the string `a@b.co` followed by a newline is accepted although it
is not of that shape, because Python's `$` also matches before a final
newline. -/
theorem validate_email_not_exact :
    validate_email ("a@b.co\n".data) = true ∧ ¬specEmailForm ("a@b.co\n".data) :=
  ⟨by decide, fun h => absurd (matchesCore_iff.mpr h) (by decide)⟩

/-- C7 amended: `validate_email` accepts exactly the strings of the
claimed `local@domain.tld` shape, optionally followed by one trailing
newline; the claim's four concrete examples hold as stated. -/
theorem validate_email_amended :
    (∀ s : List Char, validate_email s = true ↔
      specEmailForm s ∨ ∃ s₀, s = s₀ ++ ['\n'] ∧ specEmailForm s₀) ∧
    validate_email ("a.b+c@sub.example.co".data) = true ∧
    validate_email ("no-at-sign.com".data) = false ∧
    validate_email ("user@nodot".data) = false ∧
    validate_email ([] : List Char) = false :=
  ⟨fun _ => validate_email_iff, by decide, by decide, by decide, by decide⟩

/-- Witness for the amended C7, instantiating the shape directly. -/
theorem validate_email_amended_witness :
    validate_email ("ab@cd.ef".data) = true :=
  (validate_email_amended.1 ("ab@cd.ef".data)).mpr
    (Or.inl ⟨['a', 'b'], ['c', 'd'], ['e', 'f'], by decide, by decide, by decide,
      by decide, by decide, by decide, by decide⟩)

/-- C8: when the store raises (`fault = true`), every operation catches
the fault and returns its neutral value — `False` for the two mutators,
`None` for `get_entry`, and an empty list or empty mapping for every log
or statistics read; no fault escapes (all the embedded operations are
total functions). -/
theorem store_fault_neutral (db : DB) (e s a : String) (q t : Nat) :
    (save_entry true db e s q t).2 = false ∧
    (delete_entry true db e t).2 = false ∧
    get_entry true db e = none ∧
    get_all_entries true db = [] ∧
    get_all_logs true db = [] ∧
    get_user_activity_log true db e = [] ∧
    get_logs_by_action true db a = [] ∧
    get_show_statistics true db = [] ∧
    get_activity_statistics true db = [] ∧
    ∀ sh, get_all_statistics true db sh = none :=
  ⟨rfl, rfl, rfl, rfl, rfl, rfl, rfl, rfl, rfl, fun _ => rfl⟩

/-- C9: starting from any state whose stored emails are lowercase, every
sequence of store operations — whatever the casing of their email
arguments — leaves every entry document and every log document with a
lowercase email. -/
theorem stored_emails_lowercase (db0 : DB) (ops : List Op) (h : lowerDB db0) :
    (∀ x ∈ (runOps db0 ops).entries, noUpper x.email) ∧
    ∀ l ∈ (runOps db0 ops).logs, noUpper l.email :=
  ⟨(lowerDB_runOps ops db0 h).1, (lowerDB_runOps ops db0 h).2⟩

/-- Witness for C9: after saving with an uppercase email from the empty
state, the stored entry's email has no uppercase letter. -/
theorem stored_emails_lowercase_witness :
    ¬(65 ≤ ('u' : Char).toNat ∧ ('u' : Char).toNat ≤ 90) :=
  (stored_emails_lowercase ⟨[], [], []⟩ [Op.save "USER@X.CO" "WICKED" 2 1]
    ⟨fun x hx => absurd hx (List.not_mem_nil x),
     fun l hl => absurd hl (List.not_mem_nil l)⟩).1
    ⟨"user@x.co", "WICKED", some 2, 1⟩ (by decide) 'u' (by decide)

/-- C10: `validate_email` accepts the string `a@b.co` followed by a
newline — an input ending in a newline character that is not of the
`local@domain.tld` shape — because Python's `$` also matches just before
a trailing newline. -/
theorem validate_email_trailing_newline :
    validate_email ("a@b.co\n".data) = true ∧
    ("a@b.co\n".data).getLast? = some '\n' ∧
    ¬specEmailForm ("a@b.co\n".data) :=
  ⟨by decide, by decide, fun h => absurd (matchesCore_iff.mpr h) (by decide)⟩

end Broadway
